import Mathlib

/-!
Verification of the SAID SDK (Solana agent-identity client) against its
natural-language specification.

The TypeScript sources are shallowly embedded:
* byte buffers (`Buffer`) become `List Nat` with every byte below 256;
* the checked `Buffer` read primitives (`readUInt32LE`, `readBigInt64LE`,
  `subarray`, indexing) become `Except`-returning Lean functions where the
  real primitive can throw a `RangeError`, so that decode safety ("no
  out-of-bounds read") is expressible as "the decoder never returns the
  distinguished `oobRead` error";
* JS exceptions become `Except` errors, `null` becomes `Option.none`;
* asynchronous effects (RPC calls, HTTP fetch, transaction submission)
  become explicit oracle arguments: a function models each awaited external
  call result, so control-flow (try/catch, early returns) stays faithful.

The repository holds two builds of the SDK: the current TypeScript source
(the strict decoder with validation, `GET_VERIFIED` verify instruction) and
the generated `dist` build (the lenient decoder, `VERIFY_AGENT` verify
instruction).  Both variants are embedded where claims mention both.
-/

set_option maxRecDepth 10000

/-! ## Byte-buffer primitives (Node `Buffer` operations, bounds-checked) -/

/-- Decode/parse failures of the account codec.  The first three correspond
to the three `throw new Error(...)` sites of the strict `parseAgentData`;
`oobRead` models a `RangeError` raised by a `Buffer` read primitive when an
access is out of bounds. -/
inductive PErr where
  | invalidLength
  | malformedUri
  | truncated
  | oobRead
deriving DecidableEq, Repr

/-- Decidable equality for `Except`, so concrete decoder runs can be
checked with `decide`. -/
instance {e : Type} {a : Type} [DecidableEq e] [DecidableEq a] : DecidableEq (Except e a)
  | .error x, .error y =>
    if h : x = y then .isTrue (by rw [h]) else .isFalse (fun hc => h (Except.error.inj hc))
  | .error _, .ok _ => .isFalse Except.noConfusion
  | .ok _, .error _ => .isFalse Except.noConfusion
  | .ok x, .ok y =>
    if h : x = y then .isTrue (by rw [h]) else .isFalse (fun hc => h (Except.ok.inj hc))

/-- Single byte access `data[i]` in its checked form: `oobRead` when the
index is outside the buffer. -/
def getByte (data : List Nat) (i : Nat) : Except PErr Nat :=
  match data.get? i with
  | some b => .ok b
  | none => .error .oobRead

/-- `Buffer.prototype.readUInt32LE(off)`: little-endian 32-bit read,
`RangeError` when the four bytes do not fit in the buffer. -/
def readUInt32LE (data : List Nat) (off : Nat) : Except PErr Nat :=
  match getByte data off, getByte data (off + 1), getByte data (off + 2), getByte data (off + 3) with
  | .ok b0, .ok b1, .ok b2, .ok b3 => .ok (b0 + 256 * b1 + 65536 * b2 + 16777216 * b3)
  | _, _, _, _ => .error .oobRead

/-- Little-endian unsigned accumulation of 8 bytes. -/
def u64OfBytes (b0 b1 b2 b3 b4 b5 b6 b7 : Nat) : Nat :=
  b0 + 256 * b1 + 65536 * b2 + 16777216 * b3 + 4294967296 * b4 +
    1099511627776 * b5 + 281474976710656 * b6 + 72057594037927936 * b7

/-- `Buffer.prototype.readBigInt64LE(off)`: signed 64-bit little-endian
read (two's complement), `RangeError` out of bounds. -/
def readBigInt64LE (data : List Nat) (off : Nat) : Except PErr Int :=
  match getByte data off, getByte data (off + 1), getByte data (off + 2), getByte data (off + 3),
        getByte data (off + 4), getByte data (off + 5), getByte data (off + 6), getByte data (off + 7) with
  | .ok b0, .ok b1, .ok b2, .ok b3, .ok b4, .ok b5, .ok b6, .ok b7 =>
      let n := u64OfBytes b0 b1 b2 b3 b4 b5 b6 b7
      .ok (if n < 9223372036854775808 then (n : Int) else (n : Int) - 18446744073709551616)
  | _, _, _, _, _, _, _, _ => .error .oobRead

/-- `Buffer.prototype.subarray(start, stop)` in checked form: the caller of
the strict decoder always validates bounds first, so we surface an
out-of-range request as `oobRead` instead of silently clamping. -/
def subarrayChecked (data : List Nat) (start stop : Nat) : Except PErr (List Nat) :=
  if stop ≤ data.length then .ok ((data.drop start).take (stop - start)) else .error .oobRead

/-- `Buffer.prototype.subarray(start, stop)` with Node's actual clamping
semantics (never throws), used by the lenient decoder variant. -/
def subarrayClamp (data : List Nat) (start stop : Nat) : List Nat :=
  (data.drop start).take (stop - start)

/-! ## UTF-8 and base58 encodings -/

/-- UTF-8 encoding of one Unicode code point (as `Buffer.from(s, 'utf8')`
performs per character). -/
def utf8EncodeCharNat (c : Nat) : List Nat :=
  if c < 128 then [c]
  else if c < 2048 then [192 + c / 64, 128 + c % 64]
  else if c < 65536 then [224 + c / 4096, 128 + c / 64 % 64, 128 + c % 64]
  else [240 + c / 262144, 128 + c / 4096 % 64, 128 + c / 64 % 64, 128 + c % 64]

/-- `Buffer.from(s, 'utf8')` as a list of byte values. -/
def utf8Bytes (s : String) : List Nat :=
  s.data.foldr (fun c acc => utf8EncodeCharNat c.toNat ++ acc) []

/-- The bitcoin base58 alphabet used by `bs58`. -/
def b58Alphabet : List Char :=
  "123456789ABCDEFGHJKLMNPQRSTUVWXYZabcdefghijkmnopqrstuvwxyz".data

/-- Big-endian digit expansion of `n` in base `b`; `fuel` bounds the
recursion depth and any `fuel ≥ n` is exact. -/
def toDigitsBE (b : Nat) : Nat → Nat → List Nat
  | 0, _ => []
  | fuel + 1, n => if n = 0 then [] else toDigitsBE b fuel (n / b) ++ [n % b]

/-- Value of a big-endian digit list in base `b`. -/
def ofDigitsBE (b : Nat) (ds : List Nat) : Nat :=
  ds.foldl (fun a d => a * b + d) 0

/-- `bs58.encode`: leading zero bytes become leading `'1'` characters, the
remaining bytes are re-expanded in base 58. -/
def encode58 (bytes : List Nat) : List Char :=
  List.replicate (bytes.takeWhile (fun b => b == 0)).length '1' ++
    (toDigitsBE 58 (ofDigitsBE 256 (bytes.dropWhile (fun b => b == 0)))
        (ofDigitsBE 256 (bytes.dropWhile (fun b => b == 0)))).map
      (fun d => b58Alphabet.getD d '?')

/-- `bs58.decode`: `none` on a character outside the alphabet (bs58
throws), otherwise leading `'1'`s become zero bytes and the rest is the
big-endian base-256 expansion of the base-58 value. -/
def decode58 (s : List Char) : Option (List Nat) :=
  if s.all (fun c => c ∈ b58Alphabet) then
    some (List.replicate (s.takeWhile (fun c => c == '1')).length 0 ++
      toDigitsBE 256 (ofDigitsBE 58 (s.map (fun c => b58Alphabet.indexOf c)))
        (ofDigitsBE 58 (s.map (fun c => b58Alphabet.indexOf c))))
  else none

/-- `new PublicKey(string)`: base58-decode and insist on exactly 32 bytes
(the constructor throws otherwise). -/
def pubKeyOfBase58 (s : List Char) : Option (List Nat) :=
  match decode58 s with
  | some bs => if bs.length = 32 then some bs else none
  | none => none

/-! ## Program constants (src/index.ts and dist/index.js) -/

/-- `SAID_PROGRAM_ID = new PublicKey('5dpw6KEQPn248pnkkaYyWfHwu2nfb3LUMbTucb6LaA8G')`. -/
def SAID_PROGRAM_ID : List Nat :=
  (pubKeyOfBase58 "5dpw6KEQPn248pnkkaYyWfHwu2nfb3LUMbTucb6LaA8G".data).getD []

/-- `TREASURY_PDA = new PublicKey('2XfHTeNWTjNwUmgoXaafYuqHcAAXj8F5Kjw2Bnzi4FxH')`. -/
def TREASURY_PDA : List Nat :=
  (pubKeyOfBase58 "2XfHTeNWTjNwUmgoXaafYuqHcAAXj8F5Kjw2Bnzi4FxH".data).getD []

/-- `SystemProgram.programId` (the all-zero key `11111111111111111111111111111111`). -/
def systemProgramId : List Nat := List.replicate 32 0

/-- `AGENT_ACCOUNT_SIZE = 263`. -/
def AGENT_ACCOUNT_SIZE : Nat := 263

/-- `REGISTER_AGENT_DISCRIMINATOR` of the TypeScript source. -/
def REGISTER_AGENT_DISCRIMINATOR : List Nat := [135, 157, 66, 195, 2, 113, 175, 30]

/-- `GET_VERIFIED_DISCRIMINATOR` of the TypeScript source. -/
def GET_VERIFIED_DISCRIMINATOR : List Nat := [132, 231, 2, 30, 115, 74, 23, 26]

/-- `REGISTER_AGENT_DISCRIMINATOR` of the generated dist build. -/
def distRegisterDiscriminator : List Nat := [51, 10, 104, 110, 50, 83, 175, 37]

/-- `VERIFY_AGENT_DISCRIMINATOR` of the generated dist build. -/
def distVerifyDiscriminator : List Nat := [26, 117, 145, 70, 163, 102, 21, 103]

/-! ## Data model -/

/-- `AgentCard`, the off-chain JSON document.  Only its presence matters to
the claims, so just the mandatory `name` field is carried. -/
structure AgentCard where
  name : List Char
deriving DecidableEq, Repr

/-- `AgentIdentity`, the decoded on-chain record.  `metadataUri` is kept as
the raw byte slice the decoder extracts (the source converts it to a JS
string with `toString('utf8')`, which is byte-for-byte faithful for valid
UTF-8 data). -/
structure AgentIdentity where
  pubkey : List Char
  owner : List Char
  metadataUri : List Nat
  registeredAt : Int
  isVerified : Bool
  verifiedAt : Int
  card : Option AgentCard := none
deriving DecidableEq, Repr

/-! ## Account codec -/

/-- Strict `parseAgentData` (current TypeScript source, part_001 lines
382-413): validates the total length, the `uriLength` field and the room
for the fixed suffix before any slicing, throwing distinct errors. -/
def parseAgentData (pubkey : List Char) (data : List Nat) : Except PErr AgentIdentity :=
  if data.length ≠ AGENT_ACCOUNT_SIZE then .error .invalidLength
  else match subarrayChecked data 8 40 with
  | .error e => .error e
  | .ok ownerBytes =>
    match readUInt32LE data 40 with
    | .error e => .error e
    | .ok uriLength =>
      if 200 < uriLength ∨ data.length < 44 + uriLength then .error .malformedUri
      else match subarrayChecked data 44 (44 + uriLength) with
      | .error e => .error e
      | .ok uriBytes =>
        if data.length < 44 + uriLength + 17 then .error .truncated
        else match readBigInt64LE data (44 + uriLength) with
        | .error e => .error e
        | .ok registeredAt =>
          match getByte data (44 + uriLength + 8) with
          | .error e => .error e
          | .ok vbyte =>
            match readBigInt64LE data (44 + uriLength + 9) with
            | .error e => .error e
            | .ok verifiedAt =>
              .ok { pubkey := pubkey
                    owner := encode58 ownerBytes
                    metadataUri := uriBytes
                    registeredAt := registeredAt
                    isVerified := vbyte == 1
                    verifiedAt := verifiedAt }

/-- Lenient `parseAgentData` (first build of the SDK, part_001 lines
78-106, and the dist build): no validation; `subarray` clamps, the
`readBigInt64LE` calls throw a `RangeError` when past the end, and the
plain `data[offset + 8] === 1` index yields `undefined === 1 = false` out
of bounds rather than throwing. -/
def parseAgentDataLenient (pubkey : List Char) (data : List Nat) : Except PErr AgentIdentity :=
  match subarrayChecked data 8 40 with
  | .error e => .error e
  | .ok ownerBytes =>
    match readUInt32LE data 40 with
    | .error e => .error e
    | .ok uriLength =>
      let uriBytes := subarrayClamp data 44 (44 + uriLength)
      match readBigInt64LE data (44 + uriLength) with
      | .error e => .error e
      | .ok registeredAt =>
        match readBigInt64LE data (44 + uriLength + 9) with
        | .error e => .error e
        | .ok verifiedAt =>
          .ok { pubkey := pubkey
                owner := encode58 ownerBytes
                metadataUri := uriBytes
                registeredAt := registeredAt
                isVerified := data.get? (44 + uriLength + 8) == some 1
                verifiedAt := verifiedAt }

/-- The decode path of the lenient `lookup`/`lookupByPDA` (part_001 lines
111-143): a missing account or a size other than 263 yields `null` before
`parseAgentData` is ever invoked, and any exception from parsing is caught
and collapsed to `null`. -/
def lookupGuard (pubkey : List Char) (data : List Nat) : Option AgentIdentity :=
  if data.length ≠ AGENT_ACCOUNT_SIZE then none
  else match parseAgentDataLenient pubkey data with
  | .ok a => some a
  | .error _ => none

/-! ## Address deriver -/

/-- The seed literal `Buffer.from('agent')`. -/
def agentSeed : List Nat := utf8Bytes "agent"

/-- The fixed marker `'ProgramDerivedAddress'` appended by
`PublicKey.createProgramAddress`. -/
def pdaMarker : List Nat := utf8Bytes "ProgramDerivedAddress"

/-- `PublicKey.createProgramAddressSync(seeds, programId)`, parameterised
by the SHA-256 function and the curve membership test (both external
cryptographic primitives): hash the concatenated seeds, program id and
marker; fail when the hash lies on the ed25519 curve. -/
def createProgramAddress (sha256 : List Nat → List Nat) (isOnCurve : List Nat → Bool)
    (seeds : List (List Nat)) (programId : List Nat) : Option (List Nat) :=
  let h := sha256 (seeds.foldr (fun s acc => s ++ acc) [] ++ programId ++ pdaMarker)
  if isOnCurve h then none else some h

/-- The bump search of `PublicKey.findProgramAddressSync`: bumps are tried
from 255 downward; the recursion argument is `bump + 1`. -/
def findBump (sha256 : List Nat → List Nat) (isOnCurve : List Nat → Bool)
    (seeds : List (List Nat)) (programId : List Nat) : Nat → Option (List Nat × Nat)
  | 0 => none
  | bound + 1 =>
    match createProgramAddress sha256 isOnCurve (seeds ++ [[bound]]) programId with
    | some addr => some (addr, bound)
    | none => findBump sha256 isOnCurve seeds programId bound

/-- `PublicKey.findProgramAddressSync(seeds, programId)`. -/
def findProgramAddressSync (sha256 : List Nat → List Nat) (isOnCurve : List Nat → Bool)
    (seeds : List (List Nat)) (programId : List Nat) : Option (List Nat × Nat) :=
  findBump sha256 isOnCurve seeds programId 256

/-- `SAID.deriveAgentPDA(owner)`: the argument is either a `PublicKey`
(32 raw bytes, `Sum.inl`) or its base58 string form (`Sum.inr`), which the
source first converts with `new PublicKey(owner)`.  `none` models the
constructor or derivation throwing. -/
def deriveAgentPDA (sha256 : List Nat → List Nat) (isOnCurve : List Nat → Bool)
    (owner : List Nat ⊕ List Char) : Option (List Nat × Nat) :=
  match owner with
  | .inl key => findProgramAddressSync sha256 isOnCurve [agentSeed, key] SAID_PROGRAM_ID
  | .inr s =>
    match pubKeyOfBase58 s with
    | some key => findProgramAddressSync sha256 isOnCurve [agentSeed, key] SAID_PROGRAM_ID
    | none => none

/-! ## Instruction builder -/

/-- One entry of a `TransactionInstruction` key list. -/
structure AccountMeta where
  pubkey : List Nat
  isSigner : Bool
  isWritable : Bool
deriving DecidableEq, Repr

/-- `TransactionInstruction`. -/
structure TransactionInstruction where
  keys : List AccountMeta
  programId : List Nat
  data : List Nat
deriving DecidableEq, Repr

/-- `Buffer.alloc(4)` followed by `writeUInt32LE(value, 0)`: write the four
little-endian bytes of `value` into a zero buffer at offset 0. -/
def writeUInt32LEBuf (value : Nat) : List Nat :=
  let buf := List.replicate 4 0
  (buf.set 0 (value % 256)).set 1 (value / 256 % 256)
    |>.set 2 (value / 65536 % 256) |>.set 3 (value / 16777216 % 256)

/-- `buildRegisterInstruction` of the TypeScript source (part_001 lines
568-593): data = discriminator ++ LE-u32 length ++ UTF-8 bytes; accounts =
agent PDA (writable), owner (writable signer), system program. -/
def buildRegisterInstruction (agentPDA owner : List Nat) (metadataUri : String) :
    TransactionInstruction :=
  let uriBytes := utf8Bytes metadataUri
  let uriLengthBuffer := writeUInt32LEBuf uriBytes.length
  { keys := [ { pubkey := agentPDA, isSigner := false, isWritable := true },
              { pubkey := owner, isSigner := true, isWritable := true },
              { pubkey := systemProgramId, isSigner := false, isWritable := false } ]
    programId := SAID_PROGRAM_ID
    data := REGISTER_AGENT_DISCRIMINATOR ++ uriLengthBuffer ++ uriBytes }

/-- `buildRegisterInstruction` of the dist build (dist/index.js lines
220-238): identical to the source variant except for the discriminator
constant. -/
def buildRegisterInstructionDist (agentPDA owner : List Nat) (metadataUri : String) :
    TransactionInstruction :=
  let uriBytes := utf8Bytes metadataUri
  let uriLengthBuffer := writeUInt32LEBuf uriBytes.length
  { keys := [ { pubkey := agentPDA, isSigner := false, isWritable := true },
              { pubkey := owner, isSigner := true, isWritable := true },
              { pubkey := systemProgramId, isSigner := false, isWritable := false } ]
    programId := SAID_PROGRAM_ID
    data := distRegisterDiscriminator ++ uriLengthBuffer ++ uriBytes }

/-- `buildVerifyInstruction` of the TypeScript source (part_001 lines
598-612): note the treasury is listed second, before the owner. -/
def buildVerifyInstruction (agentPDA owner : List Nat) : TransactionInstruction :=
  { keys := [ { pubkey := agentPDA, isSigner := false, isWritable := true },
              { pubkey := TREASURY_PDA, isSigner := false, isWritable := true },
              { pubkey := owner, isSigner := true, isWritable := true },
              { pubkey := systemProgramId, isSigner := false, isWritable := false } ]
    programId := SAID_PROGRAM_ID
    data := GET_VERIFIED_DISCRIMINATOR }

/-- `buildVerifyInstruction` of the dist build (dist/index.js lines
242-253): the owner is listed second, before the treasury. -/
def buildVerifyInstructionDist (agentPDA owner : List Nat) : TransactionInstruction :=
  { keys := [ { pubkey := agentPDA, isSigner := false, isWritable := true },
              { pubkey := owner, isSigner := true, isWritable := true },
              { pubkey := TREASURY_PDA, isSigner := false, isWritable := true },
              { pubkey := systemProgramId, isSigner := false, isWritable := false } ]
    programId := SAID_PROGRAM_ID
    data := distVerifyDiscriminator }

/-! ## Identity client orchestration -/

/-- Outcome of one awaited `fetch(uri)` + `res.json()` pair. -/
inductive FetchOutcome where
  | success (card : AgentCard)
  | httpError
  | networkError
  | jsonError
deriving DecidableEq, Repr

/-- Replace the first occurrence of `pat` in `l` by `sub`
(JS `String.prototype.replace` with a string pattern). -/
def replaceFirst (pat sub : List Nat) : List Nat → List Nat
  | [] => []
  | x :: xs => if pat.isPrefixOf (x :: xs) then sub ++ (x :: xs).drop pat.length
               else x :: replaceFirst pat sub xs

/-- The URI normalisation applied before every card fetch: insert `www.`
when the URI mentions `saidprotocol.com` without `www.`. -/
def normalizeUri (uri : List Nat) : List Nat :=
  if (utf8Bytes "saidprotocol.com" <:+: uri) ∧ ¬ (utf8Bytes "www." <:+: uri) then
    replaceFirst (utf8Bytes "saidprotocol.com") (utf8Bytes "www.saidprotocol.com") uri
  else uri

/-- The per-record card step of `listAgents`: fetch the (normalised) URI;
only a 2xx response with parsable JSON sets `card`; every failure is caught
and leaves the record untouched. -/
def assignCard (fetch : List Nat → FetchOutcome) (agent : AgentIdentity) : AgentIdentity :=
  match fetch (normalizeUri agent.metadataUri) with
  | .success c => { agent with card := some c }
  | _ => agent

/-- JS `Array.prototype.map` over a throwing callback: the first exception
aborts the whole map. -/
def mapExcept (f : α → Except ε β) : List α → Except ε (List β)
  | [] => .ok []
  | x :: xs =>
    match f x with
    | .error e => .error e
    | .ok y =>
      match mapExcept f xs with
      | .error e => .error e
      | .ok ys => .ok (y :: ys)

/-- `listAgents(options)` (strict build, part_001 lines 512-545) as a
function of the program-account scan result (pairs of base58 pubkey and
account bytes; the RPC filter guarantees 263-byte buffers but the model
leaves the bytes arbitrary) and of the card-fetch oracle.  Any exception
inside the `try` — including a decode throw from the account map — is
caught at the top and yields `[]`. -/
def listAgents (accounts : List (List Char × List Nat)) (includeCards : Bool)
    (fetch : List Nat → FetchOutcome) : List AgentIdentity :=
  match mapExcept (fun pd => parseAgentData pd.1 pd.2) accounts with
  | .error _ => []
  | .ok agents => if includeCards then agents.map (assignCard fetch) else agents

/-- Errors surfaced by transaction submission. -/
inductive TxErr where
  | rejected
  | network
deriving DecidableEq, Repr

/-- A `Keypair`. -/
structure Keypair where
  publicKey : List Nat
  secretKey : List Nat
deriving DecidableEq, Repr

/-- `CreateAgentResult` as returned by `createAgent`. -/
structure CreateAgentResult where
  wallet : Keypair
  walletAddress : List Char
  secretKey : List Char
  agentPDA : List Char
  metadataUri : String
  txSignature : List Char
deriving DecidableEq, Repr

/-- `createAndVerifyAgent` (part_001 lines 745-779) as a function of the
outcomes of its three awaited external steps, in program order: the
`createAgent` call, the `sendAndConfirmTransaction` of the verification-fee
funding transfer, and the `verifyAgent` call.  Only the verification step
sits in a `try`/`catch`; its failure is converted to `verified: false`
while create/funding failures propagate. -/
def createAndVerifyAgent (createStep : Except TxErr CreateAgentResult)
    (fundStep : Except TxErr (List Char)) (verifyStep : Except TxErr (List Char)) :
    Except TxErr (CreateAgentResult × Bool) :=
  match createStep with
  | .error e => .error e
  | .ok result =>
    match fundStep with
    | .error e => .error e
    | .ok _ =>
      match verifyStep with
      | .ok _ => .ok (result, true)
      | .error _ => .ok (result, false)

/-- The reference little-endian uint32 byte encoding (the spec's
"little-endian-uint32(len)"), to compare against the builder's
`Buffer.alloc` + `writeUInt32LE` sequence. -/
def leUInt32 (n : Nat) : List Nat :=
  [n % 256, n / 256 % 256, n / 65536 % 256, n / 16777216 % 256]

/-- The card value the `listAgents` card phase attaches to a record: set
exactly on a fetch success, unset on http/network/JSON failure. -/
def cardOf (fetch : List Nat → FetchOutcome) (agent : AgentIdentity) : Option AgentCard :=
  match fetch (normalizeUri agent.metadataUri) with
  | .success c => some c
  | _ => none

/-! ## Concrete test vectors -/

/-- A 263-byte account whose uriLength field is 250: too large for the
buffer (44 + 250 > 263). -/
def oversizedUriBuf : List Nat :=
  List.replicate 40 0 ++ [250, 0, 0, 0] ++ List.replicate 219 0

/-- A 263-byte account whose uriLength field is 202: the record would fit
exactly (44 + 202 + 17 = 263) yet exceeds the 200-byte cap. -/
def packedUriBuf : List Nat :=
  List.replicate 40 0 ++ [202, 0, 0, 0] ++ List.replicate 219 0

/-- A well-formed 263-byte account: zero discriminator, zero owner key,
uriLength 5, URI "hello", registeredAt 0, verified flag byte 1,
verifiedAt 0, zero padding. -/
def goodBuf : List Nat :=
  List.replicate 8 0 ++ List.replicate 32 0 ++ [5, 0, 0, 0] ++
    [104, 101, 108, 108, 111] ++ List.replicate 8 0 ++ [1] ++
    List.replicate 8 0 ++ List.replicate 197 0

/-- The record `goodBuf` decodes to. -/
def goodAgent : AgentIdentity :=
  { pubkey := []
    owner := encode58 (List.replicate 32 0)
    metadataUri := [104, 101, 108, 108, 111]
    registeredAt := 0
    isVerified := true
    verifiedAt := 0 }

/-- A concrete `CreateAgentResult` used to exercise `createAndVerifyAgent`. -/
def sampleResult : CreateAgentResult :=
  { wallet := { publicKey := List.replicate 32 7, secretKey := List.replicate 64 9 }
    walletAddress := encode58 (List.replicate 32 7)
    secretKey := encode58 (List.replicate 64 9)
    agentPDA := encode58 (List.replicate 32 5)
    metadataUri := "https://example.com/card.json"
    txSignature := ['s', 'i', 'g', '1'] }

/-! ## Decoder lemmas -/

theorem getByte_ok_of_lt (data : List Nat) (i : Nat) (h : i < data.length) :
    getByte data i = .ok (data.get ⟨i, h⟩) := by
  unfold getByte
  rw [List.get?_eq_get h]

theorem readUInt32LE_ok_of_le (data : List Nat) (off : Nat) (h : off + 4 ≤ data.length) :
    ∃ n, readUInt32LE data off = .ok n := by
  have h0 := getByte_ok_of_lt data (off) (by omega)
  have h1 := getByte_ok_of_lt data (off + 1) (by omega)
  have h2 := getByte_ok_of_lt data (off + 2) (by omega)
  have h3 := getByte_ok_of_lt data (off + 3) (by omega)
  exact ⟨_, by rw [readUInt32LE, h0, h1, h2, h3]⟩

theorem readBigInt64LE_ok_of_le (data : List Nat) (off : Nat) (h : off + 8 ≤ data.length) :
    ∃ v, readBigInt64LE data off = .ok v := by
  have h0 := getByte_ok_of_lt data (off) (by omega)
  have h1 := getByte_ok_of_lt data (off + 1) (by omega)
  have h2 := getByte_ok_of_lt data (off + 2) (by omega)
  have h3 := getByte_ok_of_lt data (off + 3) (by omega)
  have h4 := getByte_ok_of_lt data (off + 4) (by omega)
  have h5 := getByte_ok_of_lt data (off + 5) (by omega)
  have h6 := getByte_ok_of_lt data (off + 6) (by omega)
  have h7 := getByte_ok_of_lt data (off + 7) (by omega)
  exact ⟨_, by rw [readBigInt64LE, h0, h1, h2, h3, h4, h5, h6, h7]⟩

theorem subarrayChecked_ok {data : List Nat} {start stop : Nat} (h : stop ≤ data.length) :
    subarrayChecked data start stop = .ok ((data.drop start).take (stop - start)) := by
  simp [subarrayChecked, h]

/-- The strict decoder performs every byte access inside the buffer: it can
never surface the out-of-bounds error of a read primitive. -/
theorem parseAgentData_ne_oobRead (pk : List Char) (data : List Nat) :
    parseAgentData pk data ≠ .error .oobRead := by
  intro hcontra
  unfold parseAgentData at hcontra
  split at hcontra
  · exact PErr.noConfusion (Except.error.inj hcontra)
  · rename_i hlen
    have h263 : data.length = 263 := by
      by_contra hne
      exact hlen (by simpa [AGENT_ACCOUNT_SIZE] using hne)
    split at hcontra
    · rename_i e heq
      rw [subarrayChecked_ok (by omega)] at heq
      simp at heq
    · split at hcontra
      · rename_i e heq
        obtain ⟨n, hn⟩ := readUInt32LE_ok_of_le data (40) (by omega)
        rw [hn] at heq
        simp at heq
      · rename_i uriLength hread
        split at hcontra
        · exact PErr.noConfusion (Except.error.inj hcontra)
        · rename_i hmal
          push_neg at hmal
          split at hcontra
          · rename_i e heq
            rw [subarrayChecked_ok (by omega)] at heq
            simp at heq
          · split at hcontra
            · exact PErr.noConfusion (Except.error.inj hcontra)
            · rename_i htr
              push_neg at htr
              split at hcontra
              · rename_i e heq
                obtain ⟨r, hr⟩ := readBigInt64LE_ok_of_le data (44 + uriLength)
                  (by omega)
                rw [hr] at heq
                simp at heq
              · split at hcontra
                · rename_i e heq
                  rw [getByte_ok_of_lt data (44 + uriLength + 8) (by omega)] at heq
                  simp at heq
                · split at hcontra
                  · rename_i e heq
                    obtain ⟨w, hw⟩ := readBigInt64LE_ok_of_le data (44 + uriLength + 9)
                      (by omega)
                    rw [hw] at heq
                    simp at heq
                  · exact Except.noConfusion hcontra

/-- Characterisation of every successful strict parse: the buffer is
exactly 263 bytes, the uriLength field is at most 200 and in bounds, the
URI field is the corresponding slice, the verified flag is the equality of
the suffix byte with 1, and no card is attached. -/
theorem parseAgentData_ok_spec {pk : List Char} {data : List Nat} {a : AgentIdentity}
    (h : parseAgentData pk data = .ok a) :
    data.length = 263 ∧
      ∃ n, readUInt32LE data 40 = .ok n ∧ n ≤ 200 ∧ 44 + n ≤ 263 ∧
        a.metadataUri = (data.drop 44).take n ∧
        (a.isVerified = true ↔ data.get? (44 + n + 8) = some 1) ∧
        a.card = none := by
  unfold parseAgentData at h
  split at h
  · simp at h
  · rename_i hlen
    have h263 : data.length = 263 := by
      by_contra hne
      exact hlen (by simpa [AGENT_ACCOUNT_SIZE] using hne)
    refine ⟨h263, ?_⟩
    split at h
    · simp at h
    · split at h
      · simp at h
      · rename_i uriLength hread
        split at h
        · simp at h
        · rename_i hmal
          push_neg at hmal
          refine ⟨uriLength, hread, hmal.1, by omega, ?_⟩
          split at h
          · simp at h
          · rename_i uriBytes hsub
            split at h
            · simp at h
            · rename_i htr
              split at h
              · simp at h
              · split at h
                · simp at h
                · rename_i vbyte hv
                  split at h
                  · simp at h
                  · rw [subarrayChecked_ok (by omega)] at hsub
                    injection hsub with hsub
                    injection h with h
                    subst h
                    have huri : uriBytes = List.take uriLength (List.drop 44 data) := by
                      rw [← hsub]
                      congr 1
                      omega
                    refine ⟨huri, ?_, rfl⟩
                    have hget : data.get? (44 + uriLength + 8) = some vbyte := by
                      unfold getByte at hv
                      split at hv
                      · rename_i b hb
                        injection hv with hv
                        rw [hb, hv]
                      · simp at hv
                    simp only [hget]
                    constructor
                    · intro hb
                      have : vbyte = 1 := by simpa using hb
                      rw [this]
                    · intro hb
                      have : vbyte = 1 := by
                        have := Option.some.inj hb
                        omega
                      simp [this]

/-- Rejection lemma shared by the bounds claims: a 263-byte buffer whose
uriLength field exceeds 200 or overruns the buffer is rejected with the
malformed-URI error. -/
theorem parseAgentData_malformed {pk : List Char} {data : List Nat} {n : Nat}
    (h263 : data.length = 263) (hn : readUInt32LE data 40 = .ok n)
    (hbig : 200 < n ∨ 263 < 44 + n) :
    parseAgentData pk data = .error .malformedUri := by
  unfold parseAgentData
  rw [if_neg (by simp [AGENT_ACCOUNT_SIZE, h263])]
  simp only [subarrayChecked_ok (show (40 : Nat) ≤ data.length by omega), hn]
  rw [if_pos (by omega)]

/-- Claim C1: on every buffer whose length differs from 263 the strict
decoder fails with the invalid-length error before reading anything, and
the lenient lookup path returns `null` before its decoder is even invoked;
no partially parsed record is produced on either path. -/
theorem claim_C1 (pk : List Char) (data : List Nat) (hlen : data.length ≠ 263) :
    parseAgentData pk data = .error .invalidLength ∧ lookupGuard pk data = none := by
  constructor
  · unfold parseAgentData
    rw [if_pos (by simpa [AGENT_ACCOUNT_SIZE] using hlen)]
  · unfold lookupGuard
    rw [if_pos (by simpa [AGENT_ACCOUNT_SIZE] using hlen)]

theorem claim_C1_witness :
    parseAgentData [] [] = .error .invalidLength ∧ lookupGuard [] [] = none :=
  claim_C1 [] [] (by decide)

/-- Claim C2: on a 263-byte buffer whose uriLength field makes
44 + uriLength overrun the buffer, the strict decoder fails with the
malformed-URI error; moreover on every input whatsoever every byte access
the decoder performs is within bounds (it never surfaces the distinguished
out-of-bounds read error of the checked primitives). -/
theorem claim_C2 :
    (∀ (pk : List Char) (data : List Nat) (n : Nat), data.length = 263 →
      readUInt32LE data 40 = .ok n → 263 < 44 + n →
      parseAgentData pk data = .error .malformedUri) ∧
    ∀ (pk : List Char) (data : List Nat), parseAgentData pk data ≠ .error .oobRead :=
  ⟨fun _ _ _ h263 hn hbig => parseAgentData_malformed h263 hn (Or.inr hbig),
   parseAgentData_ne_oobRead⟩

theorem claim_C2_witness :
    parseAgentData [] oversizedUriBuf = .error .malformedUri ∧
      parseAgentData [] oversizedUriBuf ≠ .error .oobRead :=
  ⟨claim_C2.1 [] oversizedUriBuf 250 (by decide) (by decide) (by decide),
   claim_C2.2 [] oversizedUriBuf⟩

/-- Claim C5: whenever the strict decoder accepts a buffer, the returned
`isVerified` field is true exactly when the byte at offset
44 + uriLength + 8 equals 1; any other byte value there yields false (and,
since the parse succeeded, no error). -/
theorem claim_C5 (pk : List Char) (data : List Nat) (a : AgentIdentity) (n : Nat)
    (h : parseAgentData pk data = .ok a) (hn : readUInt32LE data 40 = .ok n) :
    a.isVerified = true ↔ data.get? (44 + n + 8) = some 1 := by
  obtain ⟨_, m, hm, _, _, _, hiff, _⟩ := parseAgentData_ok_spec h
  have hmn : m = n := by
    rw [hn] at hm
    exact (Except.ok.inj hm).symm
  rw [← hmn]
  exact hiff

theorem claim_C5_witness :
    goodAgent.isVerified = true ↔ goodBuf.get? (44 + 5 + 8) = some 1 :=
  claim_C5 [] goodBuf goodAgent 5 (by decide) (by decide)

/-- Claim C9: the strict decoder rejects every 263-byte buffer whose
uriLength field exceeds 200 — even when the record would still fit, as in
the tightly packed uriLength = 202 layout — and consequently every record
it returns carries a metadataUri of at most 200 bytes. -/
theorem claim_C9 :
    (∀ (pk : List Char) (data : List Nat) (n : Nat), data.length = 263 →
      readUInt32LE data 40 = .ok n → 200 < n →
      parseAgentData pk data = .error .malformedUri) ∧
    ∀ (pk : List Char) (data : List Nat) (a : AgentIdentity),
      parseAgentData pk data = .ok a → a.metadataUri.length ≤ 200 := by
  constructor
  · exact fun _ _ _ h263 hn h200 => parseAgentData_malformed h263 hn (Or.inl h200)
  · intro pk data a h
    obtain ⟨_, n, _, h200, _, huri, _, _⟩ := parseAgentData_ok_spec h
    rw [huri, List.length_take]
    omega

theorem claim_C9_witness :
    parseAgentData [] packedUriBuf = .error .malformedUri ∧
      goodAgent.metadataUri.length ≤ 200 :=
  ⟨claim_C9.1 [] packedUriBuf 202 (by decide) (by decide) (by decide),
   claim_C9.2 [] goodBuf goodAgent (by decide)⟩

/-! ## Base58 roundtrip lemmas -/

theorem ofDigitsBE_append_singleton (b d : Nat) (l : List Nat) :
    ofDigitsBE b (l ++ [d]) = ofDigitsBE b l * b + d := by
  unfold ofDigitsBE
  rw [List.foldl_append]
  rfl

theorem toDigitsBE_zero (b fuel : Nat) : toDigitsBE b fuel 0 = [] := by
  cases fuel <;> simp [toDigitsBE]

theorem ofDigitsBE_toDigitsBE {b : Nat} (hb : 2 ≤ b) :
    ∀ fuel n, n ≤ fuel → ofDigitsBE b (toDigitsBE b fuel n) = n := by
  intro fuel
  induction fuel with
  | zero =>
    intro n hn
    interval_cases n
    simp [toDigitsBE, ofDigitsBE]
  | succ fuel ih =>
    intro n hn
    by_cases hz : n = 0
    · subst hz
      simp [toDigitsBE, ofDigitsBE]
    · rw [toDigitsBE, if_neg hz, ofDigitsBE_append_singleton]
      have hdiv : n / b ≤ fuel := by
        have h1 : n / b < n := Nat.div_lt_self (Nat.pos_of_ne_zero hz) (by omega)
        omega
      rw [ih (n / b) hdiv]
      rw [Nat.mul_comm]
      exact Nat.div_add_mod n b

theorem toDigitsBE_mem_lt {b : Nat} (hb : 0 < b) :
    ∀ fuel n d, d ∈ toDigitsBE b fuel n → d < b := by
  intro fuel
  induction fuel with
  | zero =>
    intro n d hd
    simp [toDigitsBE] at hd
  | succ fuel ih =>
    intro n d hd
    rw [toDigitsBE] at hd
    by_cases hz : n = 0
    · simp [hz] at hd
    · rw [if_neg hz] at hd
      rcases List.mem_append.mp hd with hmem | hmem
      · exact ih _ _ hmem
      · have : d = n % b := List.mem_singleton.mp hmem
        rw [this]
        exact Nat.mod_lt _ hb

theorem toDigitsBE_head_ne_zero {b : Nat} (hb : 2 ≤ b) :
    ∀ fuel n, n ≤ fuel → n ≠ 0 → ∃ h t, toDigitsBE b fuel n = h :: t ∧ h ≠ 0 := by
  intro fuel
  induction fuel with
  | zero =>
    intro n hn hz
    omega
  | succ fuel ih =>
    intro n hn hz
    rw [toDigitsBE, if_neg hz]
    by_cases hdz : n / b = 0
    · rw [hdz, toDigitsBE_zero]
      refine ⟨n % b, [], rfl, ?_⟩
      have hnb : n < b := (Nat.div_eq_zero_iff (by omega)).mp hdz
      rw [Nat.mod_eq_of_lt hnb]
      exact hz
    · have hdiv : n / b ≤ fuel := by
        have h1 : n / b < n := Nat.div_lt_self (Nat.pos_of_ne_zero hz) (by omega)
        omega
      obtain ⟨h, t, heq, hne⟩ := ih (n / b) hdiv hdz
      exact ⟨h, t ++ [n % b], by rw [heq]; rfl, hne⟩

theorem foldl_digit_ge {b : Nat} (hb : 1 ≤ b) :
    ∀ (t : List Nat) (a : Nat), a ≤ List.foldl (fun x d => x * b + d) a t := by
  intro t
  induction t with
  | nil => intro a; exact Nat.le_refl a
  | cons d t ih =>
    intro a
    calc a ≤ a * b + d := by
          have : a * 1 ≤ a * b := Nat.mul_le_mul_left a hb
          omega
      _ ≤ List.foldl (fun x d => x * b + d) (a * b + d) t := ih _

theorem ofDigitsBE_head_pos {b h0 : Nat} (hb : 1 ≤ b) (hh : h0 ≠ 0) (t : List Nat) :
    1 ≤ ofDigitsBE b (h0 :: t) := by
  unfold ofDigitsBE
  have : List.foldl (fun x d => x * b + d) (0 * b + h0) t =
      List.foldl (fun x d => x * b + d) h0 t := by
    norm_num
  rw [List.foldl_cons, this]
  calc 1 ≤ h0 := Nat.one_le_iff_ne_zero.mpr hh
    _ ≤ _ := foldl_digit_ge hb t h0

theorem toDigitsBE_ofDigitsBE {b : Nat} (hb : 2 ≤ b) :
    ∀ (ds : List Nat), (∀ d ∈ ds, d < b) → (∀ h t, ds = h :: t → h ≠ 0) →
      ∀ fuel, ofDigitsBE b ds ≤ fuel → toDigitsBE b fuel (ofDigitsBE b ds) = ds := by
  intro ds
  induction ds using List.reverseRecOn with
  | nil =>
    intro _ _ fuel _
    simp [ofDigitsBE, toDigitsBE_zero]
  | append_singleton l d ihl =>
    intro hlt hhead fuel hfuel
    rw [ofDigitsBE_append_singleton] at hfuel ⊢
    have hd : d < b := hlt d (by simp)
    cases l with
    | nil =>
      have hdz : d ≠ 0 := hhead d [] rfl
      simp only [ofDigitsBE, List.foldl_nil, Nat.zero_mul, Nat.zero_add]
      obtain ⟨f, rfl⟩ : ∃ f, fuel = f + 1 := by
        simp only [ofDigitsBE, List.foldl_nil, Nat.zero_mul, Nat.zero_add] at hfuel
        exact ⟨fuel - 1, by omega⟩
      rw [toDigitsBE, if_neg hdz, Nat.div_eq_of_lt hd, toDigitsBE_zero,
        Nat.mod_eq_of_lt hd]
    | cons h0 t =>
      have hh0 : h0 ≠ 0 := hhead h0 (t ++ [d]) rfl
      have hm : 1 ≤ ofDigitsBE b (h0 :: t) := ofDigitsBE_head_pos (by omega) hh0 t
      set m := ofDigitsBE b (h0 :: t) with hmdef
      have hn1 : 1 * b ≤ m * b + d := by
        have := Nat.mul_le_mul_right b hm
        omega
      obtain ⟨f, rfl⟩ : ∃ f, fuel = f + 1 := ⟨fuel - 1, by omega⟩
      have hnz : m * b + d ≠ 0 := by omega
      rw [toDigitsBE, if_neg hnz]
      have hmod : (m * b + d) % b = d := by
        rw [Nat.mul_comm, Nat.mul_add_mod, Nat.mod_eq_of_lt hd]
      have hdivm : (m * b + d) / b = m := by
        rw [Nat.mul_comm, Nat.mul_add_div (show 0 < b by omega), Nat.div_eq_of_lt hd,
          Nat.add_zero]
      rw [hmod, hdivm]
      have hmf : m ≤ f := by
        have hlt2 : m < m * b + d := by
          have : m * 2 ≤ m * b := Nat.mul_le_mul_left m hb
          omega
        omega
      rw [ihl (fun x hx => hlt x (List.mem_append_left [d] hx)) (fun h' t' he => by
        injection he with he1 he2
        rw [← he1]
        exact hh0) f hmf]

theorem b58_indexOf_getD : ∀ d, d < 58 → b58Alphabet.indexOf (b58Alphabet.getD d '?') = d := by
  decide

theorem b58_getD_mem : ∀ d, d < 58 → b58Alphabet.getD d '?' ∈ b58Alphabet := by
  decide

theorem b58_getD_ne_one : ∀ d, d < 58 → d ≠ 0 → b58Alphabet.getD d '?' ≠ '1' := by
  decide

theorem ofDigitsBE_replicate_zero (b z : Nat) (l : List Nat) :
    ofDigitsBE b (List.replicate z 0 ++ l) = ofDigitsBE b l := by
  induction z with
  | zero => rfl
  | succ z ih =>
    rw [List.replicate_succ, List.cons_append]
    unfold ofDigitsBE at ih ⊢
    rw [List.foldl_cons]
    simpa using ih

theorem takeWhile_replicate_append {p : α → Bool} {a : α} (hp : p a = true) (z : Nat)
    (l : List α) :
    (List.replicate z a ++ l).takeWhile p = List.replicate z a ++ l.takeWhile p := by
  induction z with
  | zero => rfl
  | succ z ih =>
    rw [List.replicate_succ, List.cons_append, List.takeWhile_cons_of_pos hp, ih]
    rfl

theorem dropWhile_head_false {p : α → Bool} :
    ∀ (l : List α) (h : α) (t : List α), l.dropWhile p = h :: t → p h = false := by
  intro l
  induction l with
  | nil =>
    intro h t hc
    simp [List.dropWhile] at hc
  | cons x xs ih =>
    intro h t hc
    rw [List.dropWhile_cons] at hc
    by_cases hp : p x
    · rw [if_pos hp] at hc
      exact ih h t hc
    · rw [if_neg hp] at hc
      injection hc with hc1 _
      rw [← hc1]
      exact Bool.of_not_eq_true hp

theorem dropWhile_replicate_append {p : α → Bool} {a : α} (hp : p a = true) (z : Nat)
    (l : List α) :
    (List.replicate z a ++ l).dropWhile p = l.dropWhile p := by
  induction z with
  | zero => rfl
  | succ z ih =>
    rw [List.replicate_succ, List.cons_append, List.dropWhile_cons, if_pos hp, ih]

theorem takeWhile_head_false {p : α → Bool} {l : List α}
    (hhead : ∀ h t, l = h :: t → p h = false) : l.takeWhile p = [] := by
  cases l with
  | nil => rfl
  | cons h t =>
    rw [List.takeWhile_cons, hhead h t rfl]
    simp

theorem dropWhile_head_self {p : α → Bool} {l : List α}
    (hhead : ∀ h t, l = h :: t → p h = false) : l.dropWhile p = l := by
  cases l with
  | nil => rfl
  | cons h t =>
    rw [List.dropWhile_cons, hhead h t rfl]
    simp

/-- Shape of `bs58.encode` on a list split into leading zeros and a
zero-free-headed remainder. -/
theorem encode58_split (z : Nat) (rest : List Nat)
    (hhead : ∀ h t, rest = h :: t → h ≠ 0) :
    encode58 (List.replicate z 0 ++ rest) =
      List.replicate z '1' ++
        (toDigitsBE 58 (ofDigitsBE 256 rest) (ofDigitsBE 256 rest)).map
          (fun d => b58Alphabet.getD d '?') := by
  have hpz : ((0 : Nat) == 0) = true := by decide
  have hheadb : ∀ h t, rest = h :: t → (h == 0) = false := by
    intro h t he
    simpa using hhead h t he
  unfold encode58
  rw [takeWhile_replicate_append (p := fun b => b == 0) (a := 0) hpz,
    dropWhile_replicate_append (p := fun b => b == 0) (a := 0) hpz,
    takeWhile_head_false hheadb, dropWhile_head_self hheadb,
    List.append_nil, List.length_replicate]

theorem map_indexOf_getD (ds : List Nat) (h : ∀ d ∈ ds, d < 58) :
    (ds.map (fun d => b58Alphabet.getD d '?')).map (fun c => b58Alphabet.indexOf c) = ds := by
  induction ds with
  | nil => rfl
  | cons d t ih =>
    rw [List.map_cons, List.map_cons,
      ih (fun x hx => h x (List.mem_cons_of_mem d hx))]
    have hd : b58Alphabet.indexOf (b58Alphabet.getD d '?') = d :=
      b58_indexOf_getD d (h d (List.mem_cons_self d t))
    show b58Alphabet.indexOf (b58Alphabet.getD d '?') :: t = d :: t
    rw [hd]

theorem map_indexOf_one_replicate (z : Nat) :
    (List.replicate z '1').map (fun c => b58Alphabet.indexOf c) = List.replicate z 0 := by
  have h0 : b58Alphabet.indexOf '1' = 0 := by decide
  induction z with
  | zero => rfl
  | succ z ih => simp [List.replicate_succ, ih, h0]

/-- `bs58.decode` inverts `bs58.encode` on a list split into leading zeros
and a zero-free-headed remainder of bytes. -/
theorem decode58_encode58_split (z : Nat) (rest : List Nat)
    (hlt : ∀ d ∈ rest, d < 256) (hhead : ∀ h t, rest = h :: t → h ≠ 0) :
    decode58 (encode58 (List.replicate z 0 ++ rest)) =
      some (List.replicate z 0 ++ rest) := by
  rw [encode58_split z rest hhead]
  have hback : toDigitsBE 256 (ofDigitsBE 256 rest) (ofDigitsBE 256 rest) = rest :=
    toDigitsBE_ofDigitsBE (by omega) rest hlt hhead (ofDigitsBE 256 rest)
      (Nat.le_refl _)
  have hdigits_lt : ∀ d ∈ toDigitsBE 58 (ofDigitsBE 256 rest) (ofDigitsBE 256 rest), d < 58 :=
    fun d hd => toDigitsBE_mem_lt (by omega) _ _ d hd
  have hchars_mem :
      ∀ c ∈ (toDigitsBE 58 (ofDigitsBE 256 rest) (ofDigitsBE 256 rest)).map
        (fun d => b58Alphabet.getD d '?'), c ∈ b58Alphabet := by
    intro c hc
    obtain ⟨d, hd, rfl⟩ := List.mem_map.mp hc
    exact b58_getD_mem d (hdigits_lt d hd)
  unfold decode58
  rw [if_pos]
  · have hchtake :
        ((toDigitsBE 58 (ofDigitsBE 256 rest) (ofDigitsBE 256 rest)).map
          (fun d => b58Alphabet.getD d '?')).takeWhile (fun c => c == '1') = [] := by
      apply takeWhile_head_false
      intro c cs hcons
      cases hdig : toDigitsBE 58 (ofDigitsBE 256 rest) (ofDigitsBE 256 rest) with
      | nil =>
        rw [hdig] at hcons
        exact List.noConfusion hcons
      | cons h t =>
        have hn0 : ofDigitsBE 256 rest ≠ 0 := by
          intro hn0
          rw [hn0, toDigitsBE_zero] at hdig
          exact List.noConfusion hdig
        obtain ⟨h', t', heq, hne⟩ := toDigitsBE_head_ne_zero (b := 58) (by omega)
          (ofDigitsBE 256 rest) (ofDigitsBE 256 rest) (Nat.le_refl _) hn0
        rw [heq] at hdig hcons
        injection hdig with hdig1 _
        rw [List.map_cons] at hcons
        injection hcons with hcons1 _
        have hlt' : h' < 58 := hdigits_lt h' (by rw [heq]; simp)
        rw [← hcons1]
        simpa using b58_getD_ne_one h' hlt' hne
    rw [takeWhile_replicate_append (by decide), hchtake, List.append_nil,
      List.length_replicate]
    have hmap :
        (List.replicate z '1' ++
          (toDigitsBE 58 (ofDigitsBE 256 rest) (ofDigitsBE 256 rest)).map
            (fun d => b58Alphabet.getD d '?')).map (fun c => b58Alphabet.indexOf c) =
        List.replicate z 0 ++ toDigitsBE 58 (ofDigitsBE 256 rest) (ofDigitsBE 256 rest) := by
      rw [List.map_append, map_indexOf_one_replicate, map_indexOf_getD _ hdigits_lt]
    rw [hmap, ofDigitsBE_replicate_zero,
      ofDigitsBE_toDigitsBE (show (2 : Nat) ≤ 58 by omega) _ _ (Nat.le_refl _), hback]
  · rw [List.all_eq_true]
    intro c hc
    rcases List.mem_append.mp hc with hmem | hmem
    · have hc1 : c = '1' := List.eq_of_mem_replicate hmem
      rw [hc1]
      decide
    · simpa using hchars_mem c hmem

/-- `bs58.decode` inverts `bs58.encode` on every byte list. -/
theorem decode58_encode58 {k : List Nat} (hbytes : ∀ b ∈ k, b < 256) :
    decode58 (encode58 k) = some k := by
  have hz : k.takeWhile (fun b => b == 0) =
      List.replicate (k.takeWhile (fun b => b == 0)).length 0 := by
    rw [List.eq_replicate_iff]
    refine ⟨rfl, ?_⟩
    intro x hx
    have := List.mem_takeWhile_imp hx
    simpa using this
  have hk : List.replicate (k.takeWhile (fun b => b == 0)).length 0 ++
      k.dropWhile (fun b => b == 0) = k := by
    rw [← hz]
    exact List.takeWhile_append_dropWhile (fun b => b == 0) k
  have hlt : ∀ d ∈ k.dropWhile (fun b => b == 0), d < 256 := by
    intro d hd
    exact hbytes d ((List.dropWhile_sublist (fun b => b == 0)).mem hd)
  have hhead : ∀ h t, k.dropWhile (fun b => b == 0) = h :: t → h ≠ 0 := by
    intro h t he
    have := dropWhile_head_false (p := fun b => b == 0) k h t he
    simpa using this
  calc decode58 (encode58 k)
      = decode58 (encode58 (List.replicate (k.takeWhile (fun b => b == 0)).length 0 ++
          k.dropWhile (fun b => b == 0))) := by rw [hk]
    _ = some (List.replicate (k.takeWhile (fun b => b == 0)).length 0 ++
          k.dropWhile (fun b => b == 0)) := decode58_encode58_split _ _ hlt hhead
    _ = some k := by rw [hk]

/-! ## Instruction builder claims -/

theorem writeUInt32LEBuf_eq (n : Nat) : writeUInt32LEBuf n = leUInt32 n := rfl

/-- Claim C3, counterexample: at concrete inputs the TypeScript source's
`buildVerifyInstruction` does not produce the claimed account order — its
second account is the treasury (not a signer), not the owner (a signer). -/
theorem claim_C3_counterexample :
    ¬ (buildVerifyInstruction (List.replicate 32 2) (List.replicate 32 3)).keys =
      [ { pubkey := List.replicate 32 2, isSigner := false, isWritable := true },
        { pubkey := List.replicate 32 3, isSigner := true, isWritable := true },
        { pubkey := TREASURY_PDA, isSigner := false, isWritable := true },
        { pubkey := systemProgramId, isSigner := false, isWritable := false } ] := by
  intro h
  have h1 := congrArg
    (fun l => (l.getD 1 { pubkey := [], isSigner := false, isWritable := false }).isSigner) h
  simp [buildVerifyInstruction] at h1

/-- Claim C3, amended: both observed variants emit exactly the fixed 8-byte
verify discriminator with no arguments, but they order the middle accounts
differently — the TypeScript source lists [identity (writable), treasury
(writable, not signer), owner (writable, signer), system program
(read-only)], while the dist build lists the owner before the treasury. -/
theorem claim_C3_amended (agentPDA owner : List Nat) :
    buildVerifyInstruction agentPDA owner =
      { keys := [ { pubkey := agentPDA, isSigner := false, isWritable := true },
                  { pubkey := TREASURY_PDA, isSigner := false, isWritable := true },
                  { pubkey := owner, isSigner := true, isWritable := true },
                  { pubkey := systemProgramId, isSigner := false, isWritable := false } ],
        programId := SAID_PROGRAM_ID,
        data := GET_VERIFIED_DISCRIMINATOR } ∧
    buildVerifyInstructionDist agentPDA owner =
      { keys := [ { pubkey := agentPDA, isSigner := false, isWritable := true },
                  { pubkey := owner, isSigner := true, isWritable := true },
                  { pubkey := TREASURY_PDA, isSigner := false, isWritable := true },
                  { pubkey := systemProgramId, isSigner := false, isWritable := false } ],
        programId := SAID_PROGRAM_ID,
        data := distVerifyDiscriminator } ∧
    GET_VERIFIED_DISCRIMINATOR.length = 8 ∧ distVerifyDiscriminator.length = 8 :=
  ⟨rfl, rfl, rfl, rfl⟩

/-- Claim C4: in both builds, the register instruction's data is exactly
the fixed 8-byte register discriminator, then the little-endian uint32 byte
length of the UTF-8 encoding of the URI, then those UTF-8 bytes; the
accounts are the identity address (writable, not signer), the owner
(writable, signer) and the system program (read-only, not signer). -/
theorem claim_C4 (agentPDA owner : List Nat) (uri : String) :
    buildRegisterInstruction agentPDA owner uri =
      { keys := [ { pubkey := agentPDA, isSigner := false, isWritable := true },
                  { pubkey := owner, isSigner := true, isWritable := true },
                  { pubkey := systemProgramId, isSigner := false, isWritable := false } ],
        programId := SAID_PROGRAM_ID,
        data := REGISTER_AGENT_DISCRIMINATOR ++ leUInt32 (utf8Bytes uri).length ++
          utf8Bytes uri } ∧
    buildRegisterInstructionDist agentPDA owner uri =
      { keys := [ { pubkey := agentPDA, isSigner := false, isWritable := true },
                  { pubkey := owner, isSigner := true, isWritable := true },
                  { pubkey := systemProgramId, isSigner := false, isWritable := false } ],
        programId := SAID_PROGRAM_ID,
        data := distRegisterDiscriminator ++ leUInt32 (utf8Bytes uri).length ++
          utf8Bytes uri } ∧
    REGISTER_AGENT_DISCRIMINATOR.length = 8 ∧ distRegisterDiscriminator.length = 8 :=
  ⟨rfl, rfl, rfl, rfl⟩

/-! ## Address deriver claims -/

/-- Claim C6: `deriveAgentPDA` is a pure function of the SHA-256 primitive,
the curve test and the owner key: any two invocations on the same inputs
return the identical (address, bump) pair, with no state to mutate in the
embedding. -/
theorem claim_C6 (sha256 : List Nat → List Nat) (isOnCurve : List Nat → Bool)
    (owner : List Nat ⊕ List Char) (r1 r2 : Option (List Nat × Nat))
    (h1 : deriveAgentPDA sha256 isOnCurve owner = r1)
    (h2 : deriveAgentPDA sha256 isOnCurve owner = r2) : r1 = r2 := by
  rw [← h1, ← h2]

theorem claim_C6_witness :
    (some (([] : List Nat), 255) : Option (List Nat × Nat)) = some ([], 255) :=
  claim_C6 (fun _ => []) (fun _ => false) (.inl (List.replicate 32 0))
    (some ([], 255)) (some ([], 255)) rfl rfl

theorem pubKeyOfBase58_encode58 {k : List Nat} (hlen : k.length = 32)
    (hbytes : ∀ b ∈ k, b < 256) : pubKeyOfBase58 (encode58 k) = some k := by
  unfold pubKeyOfBase58
  rw [decode58_encode58 hbytes]
  simp [hlen]

/-- Claim C10: the string and key overloads of `deriveAgentPDA` agree —
applying it to the base58 string form of a 32-byte key yields the same
(address, bump) pair as applying it to the key itself, because
`new PublicKey` inverts the base58 encoding exactly. -/
theorem claim_C10 (sha256 : List Nat → List Nat) (isOnCurve : List Nat → Bool)
    (k : List Nat) (hlen : k.length = 32) (hbytes : ∀ b ∈ k, b < 256) :
    deriveAgentPDA sha256 isOnCurve (.inr (encode58 k)) =
      deriveAgentPDA sha256 isOnCurve (.inl k) := by
  simp only [deriveAgentPDA]
  rw [pubKeyOfBase58_encode58 hlen hbytes]

theorem claim_C10_witness :
    deriveAgentPDA (fun _ => []) (fun _ => false) (.inr (encode58 (List.replicate 32 0))) =
      deriveAgentPDA (fun _ => []) (fun _ => false) (.inl (List.replicate 32 0)) :=
  claim_C10 (fun _ => []) (fun _ => false) (List.replicate 32 0) (by decide) (by decide)

/-! ## Client orchestration claims -/

theorem mapExcept_ok_of_forall {ε α β : Type} (f : α → Except ε β) :
    ∀ l : List α, (∀ x ∈ l, (f x).isOk) →
      ∃ ys, mapExcept f l = .ok ys ∧ ys.length = l.length ∧
        ∀ y ∈ ys, ∃ x ∈ l, f x = .ok y := by
  intro l
  induction l with
  | nil =>
    intro _
    exact ⟨[], rfl, rfl, by simp⟩
  | cons x xs ih =>
    intro hall
    have hx := hall x (List.mem_cons_self x xs)
    cases hfx : f x with
    | error e =>
      rw [hfx] at hx
      simp [Except.isOk, Except.toBool] at hx
    | ok y =>
      obtain ⟨ys, hys, hlen, hmem⟩ := ih (fun z hz => hall z (List.mem_cons_of_mem x hz))
      refine ⟨y :: ys, ?_, by simp [hlen], ?_⟩
      · unfold mapExcept
        rw [hfx, hys]
      · intro z hz
        rcases List.mem_cons.mp hz with rfl | hz2
        · exact ⟨x, List.mem_cons_self x xs, hfx⟩
        · obtain ⟨x2, hx2, hfx2⟩ := hmem z hz2
          exact ⟨x2, List.mem_cons_of_mem x hx2, hfx2⟩

theorem card_none_update {a : AgentIdentity} (h : a.card = none) :
    a = { a with card := none } := by
  cases a
  simp only at h
  simp [h]

/-- Claim C7, counterexample: a scan that discovers a single 263-byte
account with an oversized uriLength field makes the decoder throw inside
the account map, the outer catch returns the empty list, and the result no
longer has one entry per discovered account. -/
theorem claim_C7_counterexample :
    (listAgents [([], oversizedUriBuf)] true (fun _ => .httpError)).length ≠ 1 := by
  decide

/-- Claim C7, amended: provided every discovered account decodes, the
listing with cards has exactly one entry per discovered account, is the
plain listing with only the card phase applied per record, and each
record's card is set exactly when its fetch succeeds — any http, network or
JSON failure leaves that record's card unset and all other fields
untouched, with no exception escaping the batch. -/
theorem claim_C7 (accounts : List (List Char × List Nat)) (fetch : List Nat → FetchOutcome)
    (hall : ∀ pd ∈ accounts, (parseAgentData pd.1 pd.2).isOk) :
    (listAgents accounts true fetch).length = accounts.length ∧
    listAgents accounts true fetch = (listAgents accounts false fetch).map (assignCard fetch) ∧
    ∀ a ∈ listAgents accounts false fetch,
      a.card = none ∧ assignCard fetch a = { a with card := cardOf fetch a } := by
  obtain ⟨ys, hok, hlen, hmem⟩ :=
    mapExcept_ok_of_forall (fun pd => parseAgentData pd.1 pd.2) accounts hall
  unfold listAgents
  rw [hok]
  refine ⟨by simp [hlen], by simp, ?_⟩
  intro a ha
  simp only [if_neg (by simp : ¬ false = true)] at ha
  obtain ⟨pd, _, hparse⟩ := hmem a ha
  obtain ⟨_, n, _, _, _, _, _, hcard⟩ := parseAgentData_ok_spec hparse
  refine ⟨hcard, ?_⟩
  unfold assignCard cardOf
  cases hfo : fetch (normalizeUri a.metadataUri) with
  | success c => rfl
  | httpError => exact card_none_update hcard
  | networkError => exact card_none_update hcard
  | jsonError => exact card_none_update hcard

theorem claim_C7_witness :
    (listAgents [([], goodBuf)] true (fun _ => .networkError)).length = 1 ∧
      listAgents [([], goodBuf)] true (fun _ => .networkError) =
        (listAgents [([], goodBuf)] false (fun _ => .networkError)).map
          (assignCard (fun _ => .networkError)) ∧
      ∀ a ∈ listAgents [([], goodBuf)] false (fun _ => .networkError),
        a.card = none ∧ assignCard (fun _ => .networkError) a =
          { a with card := cardOf (fun _ => .networkError) a } :=
  claim_C7 [([], goodBuf)] (fun _ => .networkError) (by decide)

/-- Claim C8: when creation and the verification-fee funding transfer both
succeed and the verification submission fails, `createAndVerifyAgent`
returns (rather than throws) the full creation result — wallet keypair,
wallet address, encoded secret key, derived agent address, metadata URI and
creation transaction signature all as produced by the creation step — with
`verified = false` and no rollback of the creation. -/
theorem claim_C8 (createStep : Except TxErr CreateAgentResult)
    (fundStep verifyStep : Except TxErr (List Char))
    (result : CreateAgentResult) (fundSig : List Char) (e : TxErr)
    (hc : createStep = .ok result) (hf : fundStep = .ok fundSig)
    (hv : verifyStep = .error e) :
    createAndVerifyAgent createStep fundStep verifyStep =
      .ok ({ wallet := result.wallet
             walletAddress := result.walletAddress
             secretKey := result.secretKey
             agentPDA := result.agentPDA
             metadataUri := result.metadataUri
             txSignature := result.txSignature }, false) := by
  subst hc hf hv
  rfl

theorem claim_C8_witness :
    createAndVerifyAgent (.ok sampleResult) (.ok ['t', 'x']) (.error .rejected) =
      .ok ({ wallet := sampleResult.wallet
             walletAddress := sampleResult.walletAddress
             secretKey := sampleResult.secretKey
             agentPDA := sampleResult.agentPDA
             metadataUri := sampleResult.metadataUri
             txSignature := sampleResult.txSignature }, false) :=
  claim_C8 (.ok sampleResult) (.ok ['t', 'x']) (.error .rejected)
    sampleResult ['t', 'x'] .rejected rfl rfl rfl
